import Mathlib

/-!
Verification development for the extraction → chunking → embedding pipeline
of the `adam-asks` repository.

Each Python module that the claims touch is shallowly embedded as Lean
definitions, translated from the source:

* `backend/chunk_embedding_generator.py` — resilient batch embedding
* `backend/chunk_generator.py`           — chunk slicing and symbol extraction
* `backend/ast_extractor.py`             — structural (syntax-tree) extraction
* `backend/repo_traversal.py`            — repository walker
* `backend/metadata_collector.py`        — metadata / README routing

Python strings are modelled as `List Char` where character-level behaviour
matters and as `String` where the value is opaque.  The external embedding
service (`openai_embedder.get_openai_embedding`) is modelled as a pair of
oracles: a batch call `List String → Option (List Emb)` and a single call
`String → Option Emb`, where `none` stands for the call raising an
exception (the service "must raise on transport/service failure").
-/

/- ===================================================================
   backend/chunk_embedding_generator.py
   =================================================================== -/

/-- The metadata dictionary built by `ChunkEmbeddingGenerator._load_chunks`
(lines 42–47): `file_path`, `start_line`, `end_line`, `symbols`. -/
structure ChunkMeta where
  file_path : String
  start_line : Nat
  end_line : Nat
  symbols : List String
deriving DecidableEq

/-- The `Chunk` dataclass of `chunk_embedding_generator.py` (lines 21–24). -/
structure Chunk where
  content : String
  metadata : ChunkMeta
deriving DecidableEq

/-- One output element appended by `_process_batch` (lines 78–84):
`{"content": …, "metadata": …, "embedding": …}`, where the embedding is
`none` when the Python value is `None`. -/
structure EmbeddingRecord (Emb : Type) where
  content : String
  metadata : ChunkMeta
  embedding : Option Emb
deriving DecidableEq

/-- `ChunkEmbeddingGenerator._get_batch_embeddings` (lines 86–128).

The service oracle `svcB` models `get_openai_embedding(texts)` on a list
(`none` = the call raised), `svcS` models `get_openai_embedding(text)` on a
single string.  On success the service result is returned as is; on failure
a batch of more than one text is split at `mid = len(texts) // 2` into
`texts[:mid]` and `texts[mid:]` and both halves are retried recursively
(the inner `try/except` around each recursive call never fires, because the
function itself handles every service exception); a batch of at most one
text falls back to one individual call per text, recording `None` when that
call also fails. -/
def get_batch_embeddings {Emb : Type} (svcB : List String → Option (List Emb))
    (svcS : String → Option Emb) (texts : List String) : List (Option Emb) :=
  match svcB texts with
  | some result => result.map some
  | none =>
    if _h : texts.length > 1 then
      let mid := texts.length / 2
      get_batch_embeddings svcB svcS (texts.take mid) ++
        get_batch_embeddings svcB svcS (texts.drop mid)
    else
      texts.map svcS
termination_by texts.length
decreasing_by
  · simp only [List.length_take]; omega
  · simp only [List.length_drop]; omega

/-- A call made to the embedding service: either a batch call on a list of
texts or an individual call on one text. -/
inductive SvcCall where
  | batch (texts : List String)
  | single (text : String)
deriving DecidableEq

/-- The ordered list of service calls performed by
`_get_batch_embeddings` on `texts`: instruments the very same control flow
as `get_batch_embeddings` (the batch call at line 91, the two recursive
calls at lines 101/108, the per-text individual call at line 122).  Whether
an individual call succeeds does not change which calls are made, so only
the batch oracle is needed. -/
def batch_calls {Emb : Type} (svcB : List String → Option (List Emb))
    (texts : List String) : List SvcCall :=
  match svcB texts with
  | some _ => [SvcCall.batch texts]
  | none =>
    if _h : texts.length > 1 then
      let mid := texts.length / 2
      SvcCall.batch texts ::
        (batch_calls svcB (texts.take mid) ++ batch_calls svcB (texts.drop mid))
    else
      SvcCall.batch texts :: texts.map SvcCall.single
termination_by texts.length
decreasing_by
  · simp only [List.length_take]; omega
  · simp only [List.length_drop]; omega

/-- Recognises an individual (single-text) service call. -/
def is_single_call : SvcCall → Bool
  | SvcCall.single _ => true
  | SvcCall.batch _ => false

/-- The first sub-batch formed at lines 97–98 when a failing batch is
split: `mid = len(texts) // 2; left = texts[:mid]`. -/
def split_left (texts : List String) : List String :=
  texts.take (texts.length / 2)

/-- The second sub-batch formed at lines 97–99: `right = texts[mid:]`. -/
def split_right (texts : List String) : List String :=
  texts.drop (texts.length / 2)

/-- `ChunkEmbeddingGenerator._process_batch` (lines 74–84): embed the
batch's texts, then zip the chunks with the returned embeddings into
records. -/
def process_batch {Emb : Type} (svcB : List String → Option (List Emb))
    (svcS : String → Option Emb) (batch_chunks : List Chunk) :
    List (EmbeddingRecord Emb) :=
  let texts := batch_chunks.map Chunk.content
  let embeddings := get_batch_embeddings svcB svcS texts
  (batch_chunks.zip embeddings).map fun ce =>
    { content := ce.1.content, metadata := ce.1.metadata, embedding := ce.2 }

/-- The batching loop of `ChunkEmbeddingGenerator.generate_embeddings`
(lines 56–66): chunks are accumulated into `batch_chunks`; a full batch is
processed and the accumulator reset; a non-empty trailing batch is
processed at the end.  The records of successive batches are appended in
order, exactly as `self.embeddings` accumulates them. -/
def generate_embeddings_loop {Emb : Type} (svcB : List String → Option (List Emb))
    (svcS : String → Option Emb) (batch_size : Nat) :
    List Chunk → List Chunk → List (EmbeddingRecord Emb)
  | batch_chunks, [] =>
    if batch_chunks.isEmpty then [] else process_batch svcB svcS batch_chunks
  | batch_chunks, chunk :: rest =>
    let batch' := batch_chunks ++ [chunk]
    if batch'.length = batch_size then
      process_batch svcB svcS batch' ++
        generate_embeddings_loop svcB svcS batch_size [] rest
    else
      generate_embeddings_loop svcB svcS batch_size batch' rest

/-- `ChunkEmbeddingGenerator.generate_embeddings` (lines 56–72), restricted
to the construction of the record sequence (persistence and logging have no
bearing on the data). -/
def generate_embeddings {Emb : Type} (svcB : List String → Option (List Emb))
    (svcS : String → Option Emb) (chunks : List Chunk) (batch_size : Nat) :
    List (EmbeddingRecord Emb) :=
  generate_embeddings_loop svcB svcS batch_size [] chunks

/- Helper lemmas about the embedding stage. -/

/-- A service whose successful answers have one vector per input text makes
`_get_batch_embeddings` length-preserving. -/
theorem get_batch_embeddings_length {Emb : Type}
    (svcB : List String → Option (List Emb)) (svcS : String → Option Emb)
    (hsvc : ∀ ts r, svcB ts = some r → r.length = ts.length) :
    ∀ texts, (get_batch_embeddings svcB svcS texts).length = texts.length := by
  have key : ∀ (n : Nat) (texts : List String), texts.length = n →
      (get_batch_embeddings svcB svcS texts).length = texts.length := by
    intro n
    induction n using Nat.strong_induction_on with
    | _ n ih =>
      intro texts hlen
      rw [get_batch_embeddings]
      cases hB : svcB texts with
      | some result => simpa using hsvc _ _ hB
      | none =>
        simp only
        split
        · case isTrue h =>
          rw [List.length_append,
            ih (texts.take (texts.length / 2)).length (by simp; omega) _ rfl,
            ih (texts.drop (texts.length / 2)).length (by simp; omega) _ rfl]
          simp
          omega
        · simp
  intro texts
  exact key texts.length texts rfl

theorem process_batch_proj {Emb : Type} (svcB : List String → Option (List Emb))
    (svcS : String → Option Emb)
    (hsvc : ∀ ts r, svcB ts = some r → r.length = ts.length)
    (batch_chunks : List Chunk) :
    (process_batch svcB svcS batch_chunks).map (fun r => (r.content, r.metadata))
      = batch_chunks.map (fun c => (c.content, c.metadata)) := by
  unfold process_batch
  have hlen : (get_batch_embeddings svcB svcS (batch_chunks.map Chunk.content)).length
      = batch_chunks.length := by
    rw [get_batch_embeddings_length svcB svcS hsvc]; simp
  rw [show (fun (ce : Chunk × Option Emb) =>
        ({ content := ce.1.content, metadata := ce.1.metadata, embedding := ce.2 }
          : EmbeddingRecord Emb)) =
      (fun ce => ⟨ce.1.content, ce.1.metadata, ce.2⟩) from rfl]
  rw [List.map_map]
  have hfst :
      ((batch_chunks.zip (get_batch_embeddings svcB svcS (batch_chunks.map Chunk.content))).map
        Prod.fst) = batch_chunks :=
    List.map_fst_zip _ _ (by omega)
  calc
    ((batch_chunks.zip (get_batch_embeddings svcB svcS (batch_chunks.map Chunk.content))).map
        ((fun r => (r.content, r.metadata)) ∘ fun ce => (⟨ce.1.content, ce.1.metadata, ce.2⟩ : EmbeddingRecord Emb)))
      = ((batch_chunks.zip (get_batch_embeddings svcB svcS (batch_chunks.map Chunk.content))).map
          ((fun c => (c.content, c.metadata)) ∘ Prod.fst)) := by
        apply List.map_congr_left; intro a _; rfl
    _ = batch_chunks.map (fun c => (c.content, c.metadata)) := by
        rw [← List.map_map, hfst]

theorem generate_embeddings_loop_proj {Emb : Type}
    (svcB : List String → Option (List Emb)) (svcS : String → Option Emb)
    (hsvc : ∀ ts r, svcB ts = some r → r.length = ts.length) (batch_size : Nat) :
    ∀ (rest batch_chunks : List Chunk),
      (generate_embeddings_loop svcB svcS batch_size batch_chunks rest).map
          (fun r => (r.content, r.metadata))
        = (batch_chunks ++ rest).map (fun c => (c.content, c.metadata)) := by
  intro rest
  induction rest with
  | nil =>
    intro batch_chunks
    rw [generate_embeddings_loop]
    cases batch_chunks with
    | nil => simp
    | cons c cs =>
      rw [if_neg (by simp)]
      rw [process_batch_proj svcB svcS hsvc]
      simp
  | cons chunk rest ih =>
    intro batch_chunks
    rw [generate_embeddings_loop]
    split
    · rw [List.map_append, process_batch_proj svcB svcS hsvc, ih []]
      simp
    · rw [ih (batch_chunks ++ [chunk]), List.append_assoc]
      rfl

/-- With a service call that always fails, the bisection returns one `none`
per input text. -/
theorem get_batch_embeddings_all_fail {Emb : Type} :
    ∀ texts : List String,
      get_batch_embeddings (fun _ => (none : Option (List Emb))) (fun _ => none) texts
        = List.replicate texts.length none := by
  have key : ∀ (n : Nat) (texts : List String), texts.length = n →
      get_batch_embeddings (fun _ => (none : Option (List Emb))) (fun _ => none) texts
        = List.replicate texts.length none := by
    intro n
    induction n using Nat.strong_induction_on with
    | _ n ih =>
      intro texts hlen
      rw [get_batch_embeddings]
      simp only
      split
      · case isTrue h =>
        rw [ih (texts.take (texts.length / 2)).length (by simp; omega) _ rfl,
          ih (texts.drop (texts.length / 2)).length (by simp; omega) _ rfl,
          ← List.replicate_add]
        congr 1
        simp
        omega
      · case isFalse h => simp
  intro texts
  exact key texts.length texts rfl

/-- With a service call that always fails, the bisection makes exactly one
individual call per input text. -/
theorem batch_calls_all_fail_count {Emb : Type} :
    ∀ texts : List String,
      ((batch_calls (fun _ => (none : Option (List Emb))) texts).countP is_single_call)
        = texts.length := by
  have key : ∀ (n : Nat) (texts : List String), texts.length = n →
      ((batch_calls (fun _ => (none : Option (List Emb))) texts).countP is_single_call)
        = texts.length := by
    intro n
    induction n using Nat.strong_induction_on with
    | _ n ih =>
      intro texts hlen
      rw [batch_calls]
      simp only
      split
      · case isTrue h =>
        rw [List.countP_cons_of_neg _ _ (by simp [is_single_call]), List.countP_append,
          ih (texts.take (texts.length / 2)).length (by simp; omega) _ rfl,
          ih (texts.drop (texts.length / 2)).length (by simp; omega) _ rfl]
        simp
        omega
      · case isFalse h =>
        rw [List.countP_cons_of_neg _ _ (by simp [is_single_call]), List.countP_map]
        have : (is_single_call ∘ SvcCall.single) = fun _ => true := by
          funext t; rfl
        rw [this]
        simp
  intro texts
  exact key texts.length texts rfl

theorem process_batch_all_fail {Emb : Type} (batch_chunks : List Chunk) :
    process_batch (fun _ => (none : Option (List Emb))) (fun _ => none) batch_chunks
      = batch_chunks.map (fun c => ⟨c.content, c.metadata, none⟩) := by
  simp only [process_batch, get_batch_embeddings_all_fail]
  induction batch_chunks with
  | nil => rfl
  | cons c cs ih =>
    simp only [List.map_cons, List.length_cons, List.replicate_succ,
      List.zip_cons_cons] at ih ⊢
    rw [ih]

theorem generate_embeddings_loop_all_fail {Emb : Type} (batch_size : Nat) :
    ∀ (rest batch_chunks : List Chunk),
      generate_embeddings_loop (fun _ => (none : Option (List Emb))) (fun _ => none)
          batch_size batch_chunks rest
        = (batch_chunks ++ rest).map (fun c => ⟨c.content, c.metadata, none⟩) := by
  intro rest
  induction rest with
  | nil =>
    intro batch_chunks
    rw [generate_embeddings_loop]
    cases batch_chunks with
    | nil => simp
    | cons c cs =>
      rw [if_neg (by simp)]
      rw [process_batch_all_fail]
      simp
  | cons chunk rest ih =>
    intro batch_chunks
    rw [generate_embeddings_loop]
    split
    · rw [process_batch_all_fail, ih []]
      simp
    · rw [ih (batch_chunks ++ [chunk]), List.append_assoc]
      rfl

/- Concrete service oracles used by witnesses and counterexamples. -/

/-- A batch service call that always succeeds, answering one vector per
input text. -/
def svc_batch_ok : List String → Option (List Nat) :=
  fun ts => some (ts.map (fun _ => 0))

/-- A single-text service call that always succeeds. -/
def svc_single_ok : String → Option Nat := fun _ => some 0

/-- A batch service call that always fails (raises). -/
def svc_batch_fail : List String → Option (List Nat) := fun _ => none

/-- A single-text service call that always fails (raises). -/
def svc_single_fail : String → Option Nat := fun _ => none

/- ========================= claim theorems ========================= -/

/-- C1: for every input chunk sequence, `generate_embeddings` (with
`_get_batch_embeddings`) produces exactly one EmbeddingRecord per chunk, in
input order, each carrying its originating chunk's content and metadata —
no chunk dropped or duplicated — for every behaviour of the embedding
service whose successful batch answers have one vector per input text. -/
theorem generate_embeddings_one_record_per_chunk {Emb : Type}
    (svcB : List String → Option (List Emb)) (svcS : String → Option Emb)
    (hsvc : ∀ ts r, svcB ts = some r → r.length = ts.length)
    (chunks : List Chunk) (batch_size : Nat) :
    (generate_embeddings svcB svcS chunks batch_size).length = chunks.length
    ∧ (generate_embeddings svcB svcS chunks batch_size).map
          (fun r => (r.content, r.metadata))
        = chunks.map (fun c => (c.content, c.metadata)) := by
  have hmap := generate_embeddings_loop_proj svcB svcS hsvc batch_size chunks []
  simp only [List.nil_append] at hmap
  unfold generate_embeddings
  refine ⟨?_, hmap⟩
  have := congrArg List.length hmap
  simpa using this

/-- A concrete two-chunk input used by the C1 witness. -/
def chunks_example : List Chunk :=
  [⟨"def f(): pass", ⟨"a.py", 1, 1, ["f"]⟩⟩,
   ⟨"class C: pass", ⟨"a.py", 2, 2, ["C"]⟩⟩]

/-- Witness for C1 at a concrete two-chunk input and a concrete
well-behaved service. -/
theorem generate_embeddings_one_record_per_chunk_witness :
    (generate_embeddings svc_batch_ok svc_single_ok chunks_example 100).length
        = chunks_example.length
    ∧ (generate_embeddings svc_batch_ok svc_single_ok chunks_example 100).map
          (fun r => (r.content, r.metadata))
        = chunks_example.map (fun c => (c.content, c.metadata)) :=
  generate_embeddings_one_record_per_chunk svc_batch_ok svc_single_ok
    (by intro ts r h; simp only [svc_batch_ok, Option.some.injEq] at h
        subst h; simp)
    chunks_example 100

/-- C3 counterexample: the claim predicts that a failing batch of the 3
texts `["a","b","c"]` is split with a first half of ⌈3/2⌉ = 2 texts; in the
code `mid = 3 // 2 = 1`, so the first sub-batch is `["a"]` (⌊3/2⌋ = 1
text), and the recursion issues a batch call on `["a"]` but never one on
`["a","b"]`. -/
theorem split_first_half_counterexample :
    split_left ["a", "b", "c"] = ["a"]
    ∧ (split_left ["a", "b", "c"]).length ≠ 2
    ∧ SvcCall.batch ["a"] ∈ batch_calls svc_batch_fail ["a", "b", "c"]
    ∧ SvcCall.batch ["a", "b"] ∉ batch_calls svc_batch_fail ["a", "b", "c"] := by
  have hcalls : batch_calls svc_batch_fail ["a", "b", "c"]
      = [SvcCall.batch ["a", "b", "c"], SvcCall.batch ["a"], SvcCall.single "a",
         SvcCall.batch ["b", "c"], SvcCall.batch ["b"], SvcCall.single "b",
         SvcCall.batch ["c"], SvcCall.single "c"] := by
    rw [batch_calls]
    simp only [svc_batch_fail, List.length_cons]
    norm_num
    rw [batch_calls, batch_calls]
    simp only [svc_batch_fail, List.length_cons]
    norm_num
    rw [batch_calls, batch_calls]
    simp [svc_batch_fail]
  refine ⟨rfl, by decide, ?_, ?_⟩ <;> rw [hcalls] <;> decide

/-- C3 (amended): when a batch call for `n ≥ 2` texts fails, the batch is
split into two contiguous sub-batches — the first `texts[:n//2]` with
⌊n/2⌋ texts and the remainder `texts[n//2:]` with ⌈n/2⌉ = n - ⌊n/2⌋ texts —
and the result is the concatenation of one independent recursive run per
half: each half's result is `get_batch_embeddings` of that half alone, so
failures inside one half cannot change the other half's results. -/
theorem split_retry_halves {Emb : Type} (svcB : List String → Option (List Emb))
    (svcS : String → Option Emb) (texts : List String)
    (hfail : svcB texts = none) (hlen : 1 < texts.length) :
    get_batch_embeddings svcB svcS texts
        = get_batch_embeddings svcB svcS (split_left texts) ++
            get_batch_embeddings svcB svcS (split_right texts)
    ∧ (split_left texts).length = texts.length / 2
    ∧ (split_right texts).length = texts.length - texts.length / 2 := by
  refine ⟨?_, ?_, ?_⟩
  · rw [get_batch_embeddings, hfail]
    simp only [split_left, split_right]
    rw [dif_pos hlen]
  · simp [split_left]; omega
  · simp [split_right]

/-- Witness for C3 (amended) at the concrete failing batch `["a","b","c"]`. -/
theorem split_retry_halves_witness :
    get_batch_embeddings svc_batch_fail svc_single_fail ["a", "b", "c"]
        = get_batch_embeddings svc_batch_fail svc_single_fail
            (split_left ["a", "b", "c"]) ++
          get_batch_embeddings svc_batch_fail svc_single_fail
            (split_right ["a", "b", "c"])
    ∧ (split_left ["a", "b", "c"]).length = 3 / 2
    ∧ (split_right ["a", "b", "c"]).length = 3 - 3 / 2 :=
  split_retry_halves svc_batch_fail svc_single_fail ["a", "b", "c"] rfl
    (by decide)

/-- C4: when every service call fails, `_get_batch_embeddings` on `n` texts
makes exactly `n` individual (single-item) calls and yields `n` null
(`FAILED`) embeddings, and the whole embedding stage returns one record per
chunk with a null embedding; no exception reaches the caller — the model's
total return type (`List` rather than `Except`) reflects that every service
exception is caught inside `_get_batch_embeddings`. -/
theorem all_fail_degrades_to_singles {Emb : Type} (texts : List String)
    (chunks : List Chunk) (batch_size : Nat) :
    get_batch_embeddings (fun _ => (none : Option (List Emb))) (fun _ => none) texts
        = List.replicate texts.length none
    ∧ (batch_calls (fun _ => (none : Option (List Emb))) texts).countP is_single_call
        = texts.length
    ∧ generate_embeddings (fun _ => (none : Option (List Emb))) (fun _ => none)
          chunks batch_size
        = chunks.map (fun c => ⟨c.content, c.metadata, none⟩) :=
  ⟨get_batch_embeddings_all_fail texts, batch_calls_all_fail_count texts,
    by unfold generate_embeddings
       simpa using generate_embeddings_loop_all_fail batch_size chunks []⟩

/-- C10: when a batch holds exactly one text and the batch call fails, one
further individual call is made for the same text, and the recorded
embedding is exactly that second call's outcome — null only if it also
fails, a real vector (`EMBEDDED`) if it succeeds. -/
theorem single_text_batch_retries_individually {Emb : Type}
    (svcB : List String → Option (List Emb)) (svcS : String → Option Emb)
    (t : String) (hfail : svcB [t] = none) :
    get_batch_embeddings svcB svcS [t] = [svcS t]
    ∧ batch_calls svcB [t] = [SvcCall.batch [t], SvcCall.single t] := by
  constructor
  · rw [get_batch_embeddings, hfail]
    norm_num
  · rw [batch_calls, hfail]
    norm_num

/-- Witness for C10: the batch call on `["x"]` fails but the individual
retry succeeds, so the chunk ends up embedded (`some 0`), after exactly one
batch call and one individual call. -/
theorem single_text_batch_retries_individually_witness :
    get_batch_embeddings svc_batch_fail svc_single_ok ["x"] = [svc_single_ok "x"]
    ∧ batch_calls svc_batch_fail ["x"]
        = [SvcCall.batch ["x"], SvcCall.single "x"] :=
  single_text_batch_retries_individually svc_batch_fail svc_single_ok "x" rfl

/- ===================================================================
   backend/chunk_generator.py
   =================================================================== -/

/-- Python `f.readlines()` for text whose line terminator is `'\n'` (text
mode translates platform terminators to `'\n'` before this point): the
content split after every newline, each line keeping its trailing newline;
the last line may lack one.  Concatenating the result gives the content
back. -/
def readlines : List Char → List (List Char)
  | [] => []
  | c :: cs =>
    if c = '\n' then [c] :: readlines cs
    else
      match readlines cs with
      | [] => [[c]]
      | l :: ls => (c :: l) :: ls

/-- Python `str.splitlines()` restricted to `'\n'` terminators: the lines
without their terminators, with no trailing empty line for text ending in
`'\n'`. -/
def splitlines : List Char → List (List Char)
  | [] => []
  | c :: cs =>
    if c = '\n' then [] :: splitlines cs
    else
      match splitlines cs with
      | [] => [[c]]
      | l :: ls => (c :: l) :: ls

/-- Character class `[a-zA-Z0-9_]` of the symbol regex. -/
def isWordChar (c : Char) : Bool := c.isAlpha || c.isDigit || c = '_'

/-- Character class `[a-zA-Z_]` of the symbol regex. -/
def isIdentStart (c : Char) : Bool := c.isAlpha || c = '_'

/-- `re.findall(r'\b[a-zA-Z_][a-zA-Z0-9_]*\b', text)`: the maximal runs of
word characters whose first character is a letter or underscore, in order
of occurrence.  A maximal run starting with a digit contains no word
boundary before its first letter, so it yields no match at all. -/
def find_identifiers : List Char → List (List Char)
  | [] => []
  | c :: cs =>
    if isWordChar c then
      let run := c :: cs.takeWhile isWordChar
      let rest := cs.dropWhile isWordChar
      if isIdentStart c then run :: find_identifiers rest
      else find_identifiers rest
    else find_identifiers cs
termination_by cs => cs.length
decreasing_by
  all_goals simp only [List.length_cons]
  · have := (List.dropWhile_sublist isWordChar (l := cs)).length_le; omega
  · have := (List.dropWhile_sublist isWordChar (l := cs)).length_le; omega
  · omega

/-- `ChunkGenerator.extract_symbols` (lines 20–23):
`list(set(re.findall(r'\b[a-zA-Z_][a-zA-Z0-9_]*\b', text)))`.  Python's
`set` deduplicates and iterates in an unspecified order; the model keeps
the first occurrence of each identifier (`dedup`), which has the same
element set. -/
def extract_symbols (text : List Char) : List (List Char) :=
  (find_identifiers text).dedup

/-- `ChunkGenerator.get_chunk_text` (lines 25–28):
`''.join(lines[start-1:end])` with `lines = f.readlines()`.  Faithful for
`start ≥ 1`; Python's negative-index semantics for `start = 0` does not
arise, the extractor's line numbers being 1-based. -/
def get_chunk_text (content : List Char) (start_line end_line : Nat) :
    List Char :=
  ((readlines content).drop (start_line - 1)).take
    (end_line - (start_line - 1)) |>.flatten

/-- One element of the `file_metadata` list handed to `ChunkGenerator`:
the entity's line span, read by `item.get('start_line', 1)` /
`item.get('end_line', 1)` (the extractor's metadata always carries both
keys). -/
structure EntitySpan where
  start_line : Nat
  end_line : Nat
deriving DecidableEq

/-- One chunk dictionary produced by `ChunkGenerator.generate_chunks`
(lines 35–41 and 48–55). -/
structure GenChunk where
  file_path : String
  start_line : Nat
  end_line : Nat
  symbols : List (List Char)
  text : List Char
deriving DecidableEq

/-- `ChunkGenerator.generate_chunks` (lines 30–58), with the file's content
passed explicitly (the Python method reads `self.file_path` from disk;
`f.read()` at line 33 and `f.readlines()` inside `get_chunk_text` observe
the same content). -/
def generate_chunks (file_path : String) (content : List Char)
    (file_metadata : List EntitySpan) : List GenChunk :=
  if file_metadata.isEmpty then
    [{ file_path := file_path, start_line := 1,
       end_line := (splitlines content).length,
       symbols := extract_symbols content, text := content }]
  else
    file_metadata.map fun item =>
      let chunk_text := get_chunk_text content item.start_line item.end_line
      { file_path := file_path, start_line := item.start_line,
        end_line := item.end_line,
        symbols := extract_symbols chunk_text, text := chunk_text }

/- Helper lemmas about the chunk generator. -/

theorem readlines_flatten : ∀ cs : List Char, (readlines cs).flatten = cs := by
  intro cs
  induction cs with
  | nil => rfl
  | cons c cs ih =>
    rw [readlines]
    by_cases hc : c = '\n'
    · simp [hc, ih]
    · simp only [if_neg hc]
      cases h : readlines cs with
      | nil =>
        have hnil : cs = [] := by rw [← ih, h]; rfl
        simp [hnil]
      | cons l ls =>
        rw [h] at ih
        simp only [List.flatten_cons] at ih ⊢
        rw [List.cons_append, ih]

theorem splitlines_length_eq_readlines :
    ∀ cs : List Char, (splitlines cs).length = (readlines cs).length := by
  intro cs
  induction cs with
  | nil => rfl
  | cons c cs ih =>
    rw [splitlines, readlines]
    by_cases hc : c = '\n'
    · simp [hc, ih]
    · simp only [if_neg hc]
      cases h1 : splitlines cs with
      | nil =>
        cases h2 : readlines cs with
        | nil => rfl
        | cons l2 ls2 => rw [h1, h2] at ih; simp at ih
      | cons l ls =>
        cases h2 : readlines cs with
        | nil => rw [h1, h2] at ih; simp at ih
        | cons l2 ls2 =>
          rw [h1, h2] at ih
          simpa using ih

/-- Slicing from line 1 to the file's line count reproduces the file. -/
theorem get_chunk_text_whole (content : List Char) :
    get_chunk_text content 1 ((splitlines content).length) = content := by
  unfold get_chunk_text
  rw [splitlines_length_eq_readlines]
  simp [readlines_flatten]

/-- C5: a file with an empty entity list yields exactly one chunk spanning
line 1 through the file's total line count, with the whole file as text
and symbols extracted from the whole file; a file with a non-empty entity
list yields exactly one chunk per entity, in entity order (chunk `i`
carries entity `i`'s line span). -/
theorem generate_chunks_entity_correspondence (file_path : String)
    (content : List Char) :
    generate_chunks file_path content []
        = [{ file_path := file_path, start_line := 1,
             end_line := (splitlines content).length,
             symbols := extract_symbols content, text := content }]
    ∧ ∀ file_metadata : List EntitySpan, file_metadata ≠ [] →
        (generate_chunks file_path content file_metadata).length
            = file_metadata.length
        ∧ List.Forall₂ (fun (ch : GenChunk) (item : EntitySpan) =>
              ch.file_path = file_path ∧ ch.start_line = item.start_line
                ∧ ch.end_line = item.end_line)
            (generate_chunks file_path content file_metadata) file_metadata := by
  constructor
  · rfl
  · intro file_metadata hne
    have hnotempty : file_metadata.isEmpty = false := by
      simpa [List.isEmpty_iff] using hne
    unfold generate_chunks
    rw [hnotempty]
    simp only [Bool.false_eq_true, if_false, List.length_map, true_and]
    rw [List.forall₂_map_left_iff]
    rw [List.forall₂_same]
    intro item _
    exact ⟨rfl, rfl, rfl⟩

/-- Witness for C5: a two-line file with no entities yields the single
whole-file chunk; with one entity it yields one matching chunk. -/
theorem generate_chunks_entity_correspondence_witness :
    generate_chunks "a.py" ("x = 1\ny = 2\n".data) []
        = [{ file_path := "a.py", start_line := 1,
             end_line := (splitlines ("x = 1\ny = 2\n".data)).length,
             symbols := extract_symbols ("x = 1\ny = 2\n".data),
             text := "x = 1\ny = 2\n".data }]
    ∧ ((generate_chunks "a.py" ("x = 1\ny = 2\n".data)
          [⟨1, 2⟩]).length = 1
        ∧ List.Forall₂ (fun (ch : GenChunk) (item : EntitySpan) =>
              ch.file_path = "a.py" ∧ ch.start_line = item.start_line
                ∧ ch.end_line = item.end_line)
            (generate_chunks "a.py" ("x = 1\ny = 2\n".data) [⟨1, 2⟩])
            [⟨1, 2⟩]) :=
  ⟨(generate_chunks_entity_correspondence "a.py" ("x = 1\ny = 2\n".data)).1,
    (generate_chunks_entity_correspondence "a.py" ("x = 1\ny = 2\n".data)).2
      [⟨1, 2⟩] (by simp)⟩

/-- C6: every generated chunk's `text` is the verbatim slice of the file's
lines from `start_line` to `end_line` inclusive (1-indexed), and its
`symbols` are exactly the deduplicated set of identifier tokens of that
same text (same members, no duplicates). -/
theorem chunk_text_symbols_round_trip (file_path : String)
    (content : List Char) (file_metadata : List EntitySpan)
    (_hpos : ∀ item ∈ file_metadata, 1 ≤ item.start_line) :
    ∀ ch ∈ generate_chunks file_path content file_metadata,
      ch.text = get_chunk_text content ch.start_line ch.end_line
      ∧ (∀ s, s ∈ ch.symbols ↔ s ∈ find_identifiers ch.text)
      ∧ ch.symbols.Nodup := by
  intro ch hch
  unfold generate_chunks at hch
  split at hch
  · simp only [List.mem_singleton] at hch
    subst hch
    refine ⟨?_, ?_, ?_⟩
    · exact (get_chunk_text_whole content).symm
    · intro s
      exact List.mem_dedup
    · exact List.nodup_dedup _
  · simp only [List.mem_map] at hch
    obtain ⟨item, _, hitem⟩ := hch
    subst hitem
    refine ⟨rfl, ?_, ?_⟩
    · intro s
      exact List.mem_dedup
    · exact List.nodup_dedup _

/-- Witness for C6: the (single) chunk generated for an empty file with no
entities satisfies the round trip, instantiated at the symbol `x`. -/
theorem chunk_text_symbols_round_trip_witness :
    (⟨"a.py", 1, 0, [], []⟩ : GenChunk).text
        = get_chunk_text [] (⟨"a.py", 1, 0, [], []⟩ : GenChunk).start_line
            (⟨"a.py", 1, 0, [], []⟩ : GenChunk).end_line
    ∧ ("x".data ∈ (⟨"a.py", 1, 0, [], []⟩ : GenChunk).symbols
        ↔ "x".data ∈ find_identifiers (⟨"a.py", 1, 0, [], []⟩ : GenChunk).text)
    ∧ (⟨"a.py", 1, 0, [], []⟩ : GenChunk).symbols.Nodup := by
  have hfi : find_identifiers ([] : List Char) = [] := by rw [find_identifiers]
  have hmem : (⟨"a.py", 1, 0, [], []⟩ : GenChunk)
      ∈ generate_chunks "a.py" [] [] := by
    simp [generate_chunks, extract_symbols, splitlines, hfi]
  have h := chunk_text_symbols_round_trip "a.py" [] [] (by simp)
    (⟨"a.py", 1, 0, [], []⟩ : GenChunk) hmem
  exact ⟨h.1, h.2.1 "x".data, h.2.2⟩

/- ===================================================================
   backend/ast_extractor.py
   =================================================================== -/

/-- `FunctionExtractor.get_visibility` (lines 29–35), identical to
`ClassExtractor.get_visibility` (lines 284–290):

    if name.startswith("__") and not name.endswith("__"): return "private"
    elif name.startswith("_"): return "private"
    else: return "public"
-/
def get_visibility (name : List Char) : String :=
  if "__".data.isPrefixOf name && !("__".data.isSuffixOf name) then "private"
  else if "_".data.isPrefixOf name then "private"
  else "public"

/-- A tree-sitter syntax node, reduced to what the extractor's entity and
ordering behaviour reads: the node type, the 0-based start and end rows
(`node.start_point[0]`, `node.end_point[0]`) and the children in document
order.  The other attributes (names, parameters, docstrings, decorators)
feed fields none of the claims concern. -/
inductive TSNode where
  | mk (type : String) (startRow : Nat) (endRow : Nat) (children : List TSNode)

def TSNode.type : TSNode → String
  | .mk t _ _ _ => t

def TSNode.startRow : TSNode → Nat
  | .mk _ s _ _ => s

def TSNode.endRow : TSNode → Nat
  | .mk _ _ e _ => e

def TSNode.children : TSNode → List TSNode
  | .mk _ _ _ cs => cs

/-- The entity dictionary fields C7 concerns.  Both
`FunctionExtractor.extract` (lines 148–161) and `ClassExtractor.extract`
set `start_line = node.start_point[0] + 1` and
`end_line = node.end_point[0] + 1`. -/
structure EntityRecord where
  type : String
  start_line : Nat
  end_line : Nat
deriving DecidableEq

/-- `FunctionExtractor.extract` (lines 148–161), restricted to the claim's
fields. -/
def function_extract (n : TSNode) : EntityRecord :=
  { type := "function", start_line := n.startRow + 1, end_line := n.endRow + 1 }

/-- `ClassExtractor.extract` (class branch of the entity dictionary),
restricted to the claim's fields. -/
def class_extract (n : TSNode) : EntityRecord :=
  { type := "class", start_line := n.startRow + 1, end_line := n.endRow + 1 }

mutual
/-- The recursive closure `extract_nodes` inside `ASTExtractor.extract`
(lines 382–391): a class or (async) function definition node is appended
before its children are visited, children in document order. -/
def extract_nodes : TSNode → List EntityRecord
  | .mk t s e cs =>
    (if t = "class_definition" then [class_extract (.mk t s e cs)]
     else if t = "function_definition" ∨ t = "async_function_definition" then
       [function_extract (.mk t s e cs)]
     else []) ++ extract_nodes_list cs

/-- `extract_nodes` mapped over a child list (`for child in node.children:
extract_nodes(child)`). -/
def extract_nodes_list : List TSNode → List EntityRecord
  | [] => []
  | c :: cs => extract_nodes c ++ extract_nodes_list cs
end

mutual
/-- All nodes of a tree, the node itself first (used to state the
tree-sitter well-formedness assumption). -/
def all_nodes : TSNode → List TSNode
  | .mk t s e cs => .mk t s e cs :: all_nodes_list cs

def all_nodes_list : List TSNode → List TSNode
  | [] => []
  | c :: cs => all_nodes c ++ all_nodes_list cs
end

/-- Stable insertion by `start_line`: an element is placed before the first
existing element with a strictly larger key, after all elements with
smaller-or-equal keys, so equal keys keep their original relative order —
matching Python's stable `list.sort(key=...)` (line 392). -/
def insert_by_start (e : EntityRecord) : List EntityRecord → List EntityRecord
  | [] => [e]
  | x :: xs =>
    if x.start_line < e.start_line then x :: insert_by_start e xs
    else e :: x :: xs

/-- `entities.sort(key=lambda entity: entity["start_line"])` (line 392),
as a stable insertion sort (any stable sort by the same key computes the
same list as CPython's Timsort). -/
def sort_by_start : List EntityRecord → List EntityRecord
  | [] => []
  | e :: es => insert_by_start e (sort_by_start es)

/-- The FileRecord dictionary returned by `ASTExtractor.extract`
(lines 393–403), restricted to the fields the claims concern
(`file_docstring` and `imports` come from separate scans that do not touch
`entities`).  `num_lines = len(self.code.splitlines())` (line 376). -/
structure FileRecord where
  file_path : String
  language : String
  num_lines : Nat
  entities : List EntityRecord
deriving DecidableEq

/-- `ASTExtractor.extract` (lines 380–403): collect entities recursively,
then sort them by `start_line`. -/
def ast_extract (file_path language : String) (code : List Char)
    (root_node : TSNode) : FileRecord :=
  { file_path := file_path, language := language,
    num_lines := (splitlines code).length,
    entities := sort_by_start (extract_nodes root_node) }

/- Helper lemmas about the extractor. -/

theorem prefix_single_of_double (name : List Char)
    (h : "__".data.isPrefixOf name) : "_".data.isPrefixOf name := by
  cases name with
  | nil => simp [List.isPrefixOf] at h
  | cons a as =>
    simp only [List.isPrefixOf, Bool.and_eq_true, beq_iff_eq] at h ⊢
    exact ⟨h.1, trivial⟩

theorem insert_by_start_perm (e : EntityRecord) :
    ∀ l : List EntityRecord, (insert_by_start e l).Perm (e :: l) := by
  intro l
  induction l with
  | nil => exact List.Perm.refl _
  | cons x xs ih =>
    rw [insert_by_start]
    by_cases h : x.start_line < e.start_line
    · rw [if_pos h]
      exact (ih.cons x).trans (List.Perm.swap e x xs)
    · rw [if_neg h]

theorem sort_by_start_perm : ∀ l : List EntityRecord, (sort_by_start l).Perm l := by
  intro l
  induction l with
  | nil => exact List.Perm.refl _
  | cons e es ih =>
    rw [sort_by_start]
    exact (insert_by_start_perm e (sort_by_start es)).trans (ih.cons e)

theorem insert_by_start_pairwise (e : EntityRecord) :
    ∀ l : List EntityRecord,
      List.Pairwise (fun a b => a.start_line ≤ b.start_line) l →
      List.Pairwise (fun a b => a.start_line ≤ b.start_line)
        (insert_by_start e l) := by
  intro l
  induction l with
  | nil => intro _; exact List.pairwise_singleton _ _
  | cons x xs ih =>
    intro h
    rw [List.pairwise_cons] at h
    obtain ⟨hx, hxs⟩ := h
    rw [insert_by_start]
    by_cases hcmp : x.start_line < e.start_line
    · rw [if_pos hcmp]
      rw [List.pairwise_cons]
      refine ⟨?_, ih hxs⟩
      intro b hb
      rcases List.mem_cons.mp ((insert_by_start_perm e xs).mem_iff.mp hb) with rfl | hb
      · omega
      · exact hx b hb
    · rw [if_neg hcmp]
      rw [List.pairwise_cons]
      refine ⟨?_, List.Pairwise.cons hx hxs⟩
      intro b hb
      rcases List.mem_cons.mp hb with rfl | hb
      · omega
      · exact le_trans (by omega) (hx b hb)

theorem sort_by_start_pairwise :
    ∀ l : List EntityRecord,
      List.Pairwise (fun a b => a.start_line ≤ b.start_line) (sort_by_start l) := by
  intro l
  induction l with
  | nil => simp [sort_by_start]
  | cons e es ih =>
    rw [sort_by_start]
    exact insert_by_start_pairwise e _ ih

theorem extract_nodes_list_le :
    ∀ (cs : List TSNode), (∀ m ∈ all_nodes_list cs, m.startRow ≤ m.endRow) →
      ∀ ent ∈ extract_nodes_list cs, ent.start_line ≤ ent.end_line := by
  have key : ∀ (k : Nat) (cs : List TSNode), sizeOf cs = k →
      (∀ m ∈ all_nodes_list cs, m.startRow ≤ m.endRow) →
      ∀ ent ∈ extract_nodes_list cs, ent.start_line ≤ ent.end_line := by
    intro k
    induction k using Nat.strong_induction_on with
    | _ k ih =>
      intro cs hk hwf ent hent
      cases cs with
      | nil => simp [extract_nodes_list] at hent
      | cons c rest =>
        cases c with
        | mk t s e kids =>
          rw [extract_nodes_list, extract_nodes] at hent
          rw [all_nodes_list, all_nodes] at hwf
          have hnode : s ≤ e := by
            have := hwf (.mk t s e kids)
              (List.mem_append_left _ (List.mem_cons_self _ _))
            simpa [TSNode.startRow, TSNode.endRow] using this
          simp only [List.append_assoc, List.mem_append] at hent
          rcases hent with hent | hent | hent
          · split at hent
            · simp only [class_extract, TSNode.startRow, TSNode.endRow,
                List.mem_singleton] at hent
              subst hent; simpa using hnode
            · split at hent
              · simp only [function_extract, TSNode.startRow, TSNode.endRow,
                  List.mem_singleton] at hent
                subst hent; simpa using hnode
              · simp at hent
          · refine ih (sizeOf kids) ?_ kids rfl ?_ ent hent
            · subst hk
              simp only [List.cons.sizeOf_spec, TSNode.mk.sizeOf_spec]
              omega
            · intro m hm
              exact hwf m (List.mem_append_left _ (List.mem_cons_of_mem _ hm))
          · refine ih (sizeOf rest) ?_ rest rfl ?_ ent hent
            · subst hk
              simp only [List.cons.sizeOf_spec, TSNode.mk.sizeOf_spec]
              omega
            · intro m hm
              exact hwf m (List.mem_append_right _ hm)
  intro cs hwf ent hent
  exact key (sizeOf cs) cs rfl hwf ent hent

theorem extract_nodes_le (root : TSNode)
    (hwf : ∀ m ∈ all_nodes root, m.startRow ≤ m.endRow) :
    ∀ ent ∈ extract_nodes root, ent.start_line ≤ ent.end_line := by
  intro ent hent
  refine extract_nodes_list_le [root] ?_ ent ?_
  · intro m hm
    apply hwf
    rw [all_nodes_list, all_nodes_list] at hm
    simpa using hm
  · rw [extract_nodes_list, extract_nodes_list]
    simpa using hent

/-- C2 is settled against the code: `get_visibility` returns `"private"`
for the dunder name `__init__`, because the `elif name.startswith("_")`
branch at line 31 catches every name starting with an underscore; in fact
`"private"` is returned exactly when the name starts with `"_"`, which
makes the first branch's `not name.endswith("__")` test unreachable dead
logic.  The spec's dunder exception (`__init__` → public) does not hold. -/
theorem get_visibility_dunder_is_private :
    get_visibility "_helper".data = "private"
    ∧ get_visibility "__secret".data = "private"
    ∧ get_visibility "run".data = "public"
    ∧ get_visibility "__init__".data = "private"
    ∧ ∀ name : List Char,
        get_visibility name = "private" ↔ "_".data.isPrefixOf name := by
  refine ⟨by decide, by decide, by decide, by decide, ?_⟩
  intro name
  unfold get_visibility
  by_cases h1 : ("__".data.isPrefixOf name && !("__".data.isSuffixOf name)) = true
  · rw [if_pos h1]
    simp only [Bool.and_eq_true] at h1
    simp only [true_iff]
    exact prefix_single_of_double name h1.1
  · rw [if_neg h1]
    by_cases h2 : ("_".data.isPrefixOf name) = true
    · rw [if_pos h2]
      simp [h2]
    · rw [if_neg h2]
      constructor
      · intro hc
        exact absurd hc (by decide)
      · intro hc
        exact absurd hc h2

/-- C7: on a well-formed syntax tree (tree-sitter guarantees every node's
start point does not exceed its end point), every entity of the extractor's
FileRecord satisfies `start_line ≤ end_line`, and the entity sequence is
sorted non-decreasingly by `start_line`. -/
theorem ast_extract_line_invariants (file_path language : String)
    (code : List Char) (root : TSNode)
    (hwf : ∀ m ∈ all_nodes root, m.startRow ≤ m.endRow) :
    (∀ ent ∈ (ast_extract file_path language code root).entities,
        ent.start_line ≤ ent.end_line)
    ∧ List.Pairwise (fun a b => a.start_line ≤ b.start_line)
        (ast_extract file_path language code root).entities := by
  constructor
  · intro ent hent
    have hent' : ent ∈ sort_by_start (extract_nodes root) := by
      simpa [ast_extract] using hent
    exact extract_nodes_le root hwf ent
      ((sort_by_start_perm (extract_nodes root)).mem_iff.mp hent')
  · simpa [ast_extract] using sort_by_start_pairwise (extract_nodes root)

/-- A small syntax tree: a module holding an async function on rows 3–5
(with a nested identifier) and a class on rows 0–2 with a method — the
extraction order (module-preorder) differs from the sorted order. -/
def tree_example : TSNode :=
  .mk "module" 0 5
    [.mk "function_definition" 3 5 [.mk "identifier" 3 3 []],
     .mk "class_definition" 0 2 [.mk "function_definition" 1 2 []]]

/-- Witness for C7 on a concrete tree. -/
theorem ast_extract_line_invariants_witness :
    (∀ ent ∈ (ast_extract "a.py" "python" "x = 1\n".data tree_example).entities,
        ent.start_line ≤ ent.end_line)
    ∧ List.Pairwise (fun a b => a.start_line ≤ b.start_line)
        (ast_extract "a.py" "python" "x = 1\n".data tree_example).entities :=
  ast_extract_line_invariants "a.py" "python" "x = 1\n".data tree_example
    (by simp [tree_example, all_nodes, all_nodes_list, TSNode.startRow,
      TSNode.endRow])

/- ===================================================================
   backend/repo_traversal.py
   =================================================================== -/

/-- A filesystem entry: a file, or a directory with its entries listed in
the order the operating system enumerates them (`os.scandir` order, which
`os.walk` preserves for both its `dirs` and `files` lists). -/
inductive FSEntry where
  | file (name : String)
  | dir (name : String) (children : List FSEntry)

/-- `pathlib.PurePath.suffix` of a path's final component: the segment
from the last dot on, provided that dot is neither the component's first
nor last character; otherwise the empty string. -/
def path_suffix (name : List Char) : List Char :=
  match name.reverse.findIdx? (· = '.') with
  | none => []
  | some r =>
    let i := name.length - 1 - r
    if 0 < i ∧ i < name.length - 1 then name.drop i else []

/-- The `SUPPORTED_EXTENSIONS` keys of `repo_traversal.py` (lines 7–26). -/
def SUPPORTED_EXTENSIONS : List (List Char) :=
  [".c".data, ".h".data, ".cpp".data, ".hpp".data, ".java".data, ".py".data,
   ".pyi".data, ".js".data, ".mjs".data, ".cjs".data, ".ts".data, ".tsx".data,
   ".go".data, ".rb".data, ".gemspec".data, ".md".data, ".rst".data,
   ".txt".data]

/-- The file names among a directory's entries, in enumeration order — the
`files` component `os.walk` yields for that directory. -/
def entry_files : List FSEntry → List String
  | [] => []
  | FSEntry.file n :: rest => n :: entry_files rest
  | FSEntry.dir _ _ :: rest => entry_files rest

mutual
/-- `traverse_repo` (lines 46–62) restricted to `supported_files`, for the
walk rooted at the directory with path `root` and enumerated entries
`children`: `os.walk` visits top-down, so the current directory's files
are appended first (`Path(root) / file` for every name whose suffix is a
`SUPPORTED_EXTENSIONS` key, in enumeration order), then each subdirectory
is walked recursively in enumeration order.  No sorting is applied
anywhere.  The `repo_structure` side product does not influence
`supported_files`. -/
def traverse_repo (root : String) (children : List FSEntry) : List String :=
  ((entry_files children).filterMap fun n =>
      if path_suffix n.data ∈ SUPPORTED_EXTENSIONS then some (root ++ "/" ++ n)
      else none)
    ++ walk_subdirs root children

/-- The recursive descent of `os.walk` into the subdirectories of a
directory, in enumeration order. -/
def walk_subdirs (root : String) : List FSEntry → List String
  | [] => []
  | FSEntry.file _ :: rest => walk_subdirs root rest
  | FSEntry.dir n cs :: rest =>
      traverse_repo (root ++ "/" ++ n) cs ++ walk_subdirs root rest
end

/- Helper lemmas about the walker. -/

/-- The directory entries (name and children) of a directory's entry list,
in enumeration order — the `dirs` component `os.walk` yields. -/
def entry_dirs : List FSEntry → List (String × List FSEntry)
  | [] => []
  | FSEntry.file _ :: rest => entry_dirs rest
  | FSEntry.dir n cs :: rest => (n, cs) :: entry_dirs rest

theorem entry_files_eq_filterMap (l : List FSEntry) :
    entry_files l = l.filterMap fun e =>
      match e with
      | FSEntry.file n => some n
      | FSEntry.dir _ _ => none := by
  induction l with
  | nil => rfl
  | cons e rest ih =>
    cases e <;> simp [entry_files, List.filterMap_cons, ih]

theorem entry_dirs_eq_filterMap (l : List FSEntry) :
    entry_dirs l = l.filterMap fun e =>
      match e with
      | FSEntry.file _ => none
      | FSEntry.dir n cs => some (n, cs) := by
  induction l with
  | nil => rfl
  | cons e rest ih =>
    cases e <;> simp [entry_dirs, List.filterMap_cons, ih]

theorem walk_subdirs_eq_flatMap (root : String) (l : List FSEntry) :
    walk_subdirs root l = (entry_dirs l).flatMap fun p =>
      traverse_repo (root ++ "/" ++ p.1) p.2 := by
  induction l with
  | nil => rw [walk_subdirs]; rfl
  | cons e rest ih =>
    cases e with
    | file n => rw [walk_subdirs, ih, entry_dirs]
    | dir n cs => rw [walk_subdirs, ih, entry_dirs, List.flatMap_cons]

/-- C8 counterexample: the same set of files under the root — `a.py` and
`b.py` — enumerated in two different orders yields two different candidate
sequences; in particular the first is not lexicographically sorted.  The
walker applies no per-level sorting, so the set of directories and files
alone does not determine the sequence. -/
theorem traverse_repo_order_counterexample :
    List.Perm [FSEntry.file "b.py", FSEntry.file "a.py"]
        [FSEntry.file "a.py", FSEntry.file "b.py"]
    ∧ traverse_repo "repo" [FSEntry.file "b.py", FSEntry.file "a.py"]
        = ["repo/b.py", "repo/a.py"]
    ∧ traverse_repo "repo" [FSEntry.file "a.py", FSEntry.file "b.py"]
        = ["repo/a.py", "repo/b.py"]
    ∧ traverse_repo "repo" [FSEntry.file "b.py", FSEntry.file "a.py"]
        ≠ traverse_repo "repo" [FSEntry.file "a.py", FSEntry.file "b.py"] := by
  have h1 : traverse_repo "repo" [FSEntry.file "b.py", FSEntry.file "a.py"]
      = ["repo/b.py", "repo/a.py"] := by
    rw [traverse_repo, walk_subdirs, walk_subdirs, walk_subdirs]
    decide
  have h2 : traverse_repo "repo" [FSEntry.file "a.py", FSEntry.file "b.py"]
      = ["repo/a.py", "repo/b.py"] := by
    rw [traverse_repo, walk_subdirs, walk_subdirs, walk_subdirs]
    decide
  refine ⟨List.Perm.swap _ _ _, h1, h2, ?_⟩
  rw [h1, h2]
  decide

/-- C8 (amended): the walker's sequence is a deterministic function of the
enumeration-ordered tree, and reordering the enumeration of the root's
entries only permutes the sequence — the same entries always contribute
the same paths, none added, none dropped.  The sequence itself (the claim's
property) is not determined by the file set, and no lexicographic order is
imposed. -/
theorem traverse_repo_perm_of_entries_perm (root : String)
    (c1 c2 : List FSEntry) (hperm : List.Perm c1 c2) :
    List.Perm (traverse_repo root c1) (traverse_repo root c2) := by
  rw [traverse_repo, traverse_repo, walk_subdirs_eq_flatMap,
    walk_subdirs_eq_flatMap, entry_files_eq_filterMap,
    entry_files_eq_filterMap, entry_dirs_eq_filterMap, entry_dirs_eq_filterMap]
  exact List.Perm.append ((hperm.filterMap _).filterMap _)
    ((hperm.filterMap _).flatMap_right _)

/-- Witness for C8 (amended): swapping the two files of the root permutes
the output. -/
theorem traverse_repo_perm_of_entries_perm_witness :
    List.Perm (traverse_repo "repo" [FSEntry.file "b.py", FSEntry.file "a.py"])
      (traverse_repo "repo" [FSEntry.file "a.py", FSEntry.file "b.py"]) :=
  traverse_repo_perm_of_entries_perm "repo"
    [FSEntry.file "b.py", FSEntry.file "a.py"]
    [FSEntry.file "a.py", FSEntry.file "b.py"] (List.Perm.swap _ _ _)

/- ===================================================================
   backend/metadata_collector.py
   =================================================================== -/

/-- `os.path.basename` for `/`-separated paths: what follows the last
slash. -/
def basename (p : List Char) : List Char :=
  (p.reverse.takeWhile (· ≠ '/')).reverse

/-- The README test of `collect_metadata_sequential` (lines 70 and 77):
`re.match(r'(?i)readme(\.md|\.txt|\.rst)?$', file_name)`.  `re.match`
anchors at the start and `$` at the end, so the pattern accepts exactly
the names `readme`, `readme.md`, `readme.txt`, `readme.rst`, compared
case-insensitively (`$` matching before a final newline cannot arise in a
file name). -/
def readme_match (name : List Char) : Bool :=
  let l := name.map Char.toLower
  l == "readme".data || l == "readme.md".data || l == "readme.txt".data
    || l == "readme.rst".data

/-- `MetadataCollector.process_file` (lines 25–34): only `.py` files are
parsed; the oracle `extract` models `ASTExtractor(file_path, "python")
.extract()`, `none` standing for an extraction error (caught and logged at
line 33; a successful `extract()` is a non-empty dictionary, so it is
truthy).  The FileRecord payload is abstract (`R`): C9 does not depend on
its shape. -/
def process_file {R : Type} (extract : String → Option R)
    (file_path : String) : Option R :=
  if path_suffix (basename file_path.data) = ".py".data then extract file_path
  else none

/-- `MetadataCollector.extract_readme_content` (lines 36–53): read the
file (`readFile` oracle; `none` models a read error, caught at line 51),
strip surrounding whitespace, skip empty content, and label non-empty
content with the file path. -/
def extract_readme_content (readFile : String → Option (List Char))
    (file_path : String) : Option (List Char) :=
  match readFile file_path with
  | none => none
  | some content =>
    let stripped := ((content.dropWhile Char.isWhitespace).reverse.dropWhile
        Char.isWhitespace).reverse
    if stripped.isEmpty then none
    else
      some ("file path-".data ++ file_path.data ++ "\ncontent-".data ++ stripped)

/-- The result of `collect_metadata_sequential` (without the
`repo_structure` passthrough, which comes unchanged from the walker). -/
structure CollectResult (R : Type) where
  metadata : List R
  readme_content : List Char

/-- One iteration of the `for file_path in files` loop of
`collect_metadata_sequential` (lines 75–87): the file's contribution is
appended to exactly one of the two accumulators (`metadata`,
`readme_contents`). -/
def collect_step {R : Type} (extract : String → Option R)
    (readFile : String → Option (List Char))
    (acc : List R × List (List Char)) (file_path : String) :
    List R × List (List Char) :=
  if readme_match (basename file_path.data) then
    match extract_readme_content readFile file_path with
    | some rc => (acc.1, acc.2 ++ [rc])
    | none => acc
  else
    match process_file extract file_path with
    | some r => (acc.1 ++ [r], acc.2)
    | none => acc

/-- `MetadataCollector.collect_metadata_sequential` (lines 55–91): one
pass over the walker's files, then the README snippets are joined with the
fixed delimiter (joining the empty list gives the empty string, exactly as
the Python conditional does). -/
def collect_metadata_sequential {R : Type} (extract : String → Option R)
    (readFile : String → Option (List Char)) (files : List String) :
    CollectResult R :=
  let result := files.foldl (collect_step extract readFile) ([], [])
  { metadata := result.1,
    readme_content := List.intercalate "\n==============\n".data result.2 }

/- Helper lemma about the collector's loop. -/

theorem collect_foldl_spec {R : Type} (extract : String → Option R)
    (readFile : String → Option (List Char)) :
    ∀ (files : List String) (acc : List R × List (List Char)),
      files.foldl (collect_step extract readFile) acc
        = (acc.1 ++ (files.filter fun f =>
              !readme_match (basename f.data)).filterMap
                (process_file extract),
           acc.2 ++ (files.filter fun f =>
              readme_match (basename f.data)).filterMap
                (extract_readme_content readFile)) := by
  intro files
  induction files with
  | nil => intro acc; simp
  | cons f fs ih =>
    intro acc
    rw [List.foldl_cons, ih]
    by_cases hr : readme_match (basename f.data)
    · rw [collect_step, if_pos hr]
      cases he : extract_readme_content readFile f with
      | none =>
        simp [List.filter_cons, hr, List.filterMap_cons, he]
      | some rc =>
        simp [List.filter_cons, hr, List.filterMap_cons, he]
    · rw [collect_step, if_neg hr]
      cases he : process_file extract f with
      | none =>
        simp [List.filter_cons, hr, List.filterMap_cons, he]
      | some r =>
        simp [List.filter_cons, hr, List.filterMap_cons, he]

/-- C9: every file the walker hands over is routed to exactly one side.
The structural metadata list receives exactly the non-README files'
successful extractions (the `.py` gate and extraction are inside
`process_file`), in traversal order; the documentation corpus is the
delimiter-join of exactly the README-named files' non-empty contents, in
traversal order.  A README-named file never contributes metadata and a
non-README file never contributes documentation. -/
theorem collect_metadata_routes_each_file {R : Type}
    (extract : String → Option R) (readFile : String → Option (List Char))
    (files : List String) :
    (collect_metadata_sequential extract readFile files).metadata
        = (files.filter fun f => !readme_match (basename f.data)).filterMap
            (process_file extract)
    ∧ (collect_metadata_sequential extract readFile files).readme_content
        = List.intercalate "\n==============\n".data
            ((files.filter fun f => readme_match (basename f.data)).filterMap
              (extract_readme_content readFile)) := by
  unfold collect_metadata_sequential
  rw [collect_foldl_spec]
  exact ⟨by simp, by simp⟩
